import Mathlib

/-!
Verification of the watsup time-tracking core.

This development is a shallow embedding of the Rust sources:
`src/common.rs` (NonEmptyString), `src/frame.rs` (Frame, CompletedFrame,
CompletedFrameStore and the legacy Watson codec), `src/state.rs` (the
ongoing/stopped state machine over a `StateStoreBackend`),
`src/stores/in_memory_store.rs` (the in-memory backend), `src/watson.rs`
(the Watson wire codec and file store) and `src/cli.rs` (the command
executor).  Pure functions become Lean functions; the stateful backend
becomes explicit state passing on an `InMemoryStore` record; Rust
`Result`/`Option` become `Except`/`Option`.  `chrono::DateTime<Local>` is
modelled as whole seconds since the epoch plus a sub-second nanosecond
component; `timestamp()` drops the sub-second part exactly as in chrono.
Definitions that the Rust tree only declares or calls (the newer
`frame.rs` generation: `Frame::new` with optional fields, the
`OngoingFrame` to `Frame` promotion, the `Ord` used by `Vec::sort`) are
modelled from the specification and marked as such in their doc comments.
-/

/-- Model of `chrono::DateTime<Local>`: seconds since the Unix epoch plus
a nanosecond-in-second component.  `timestamp()` returns the seconds. -/
structure DateTime where
  sec : Int
  nano : Nat
deriving DecidableEq, Repr

/-- Lexicographic key used to order date-times. -/
def DateTime.key (d : DateTime) : Lex (Int × Nat) := toLex (d.sec, d.nano)

theorem DateTime.key_injective : Function.Injective DateTime.key := by
  intro a b h
  cases a with
  | mk s₁ n₁ =>
    cases b with
    | mk s₂ n₂ =>
      simp only [DateTime.key, toLex_inj, Prod.mk.injEq] at h
      simp [h.1, h.2]

instance : LinearOrder DateTime := LinearOrder.lift' DateTime.key DateTime.key_injective

/-- Unfolding lemma for the strict order on date-times. -/
theorem DateTime.lt_def (a b : DateTime) :
    a < b ↔ (a.sec < b.sec ∨ (a.sec = b.sec ∧ a.nano < b.nano)) :=
  Prod.Lex.lt_iff (a.sec, a.nano) (b.sec, b.nano)

/-- Unfolding lemma for the order on date-times. -/
theorem DateTime.le_def (a b : DateTime) :
    a ≤ b ↔ (a.sec < b.sec ∨ (a.sec = b.sec ∧ a.nano ≤ b.nano)) :=
  Prod.Lex.le_iff (a.sec, a.nano) (b.sec, b.nano)

/-- Model of `DateTime::timestamp()`: whole seconds, sub-second dropped. -/
def DateTime.timestamp (d : DateTime) : Int := d.sec

/-- Model of `Local.timestamp_opt(secs, 0)`: the date-time at a whole
second.  chrono's range failure (hundreds of millennia away) is not
modelled; construction always succeeds. -/
def DateTime.ofTimestamp (s : Int) : DateTime := ⟨s, 0⟩

/-- Truncation of a date-time to whole seconds. -/
def DateTime.truncate (d : DateTime) : DateTime := ⟨d.sec, 0⟩

/-- Model of `common::NonEmptyString`: a tuple struct around `String`.
The checked constructor is `NonEmptyString.new`; the struct itself does
not carry the invariant (the derived serde `Deserialize` in the source
builds values without re-checking). -/
structure NonEmptyString where
  str : String
deriving DecidableEq, Repr

/-- Model of `NonEmptyString::new`: `None` on the empty string. -/
def NonEmptyString.new (t : String) : Option NonEmptyString :=
  if t.isEmpty then none else some ⟨t⟩

theorem NonEmptyString.str_injective : Function.Injective NonEmptyString.str := by
  intro a b h
  cases a
  cases b
  simpa using h

instance : LinearOrder NonEmptyString :=
  LinearOrder.lift' NonEmptyString.str NonEmptyString.str_injective

/-- Model of `frame::ProjectName`: a wrapper around `NonEmptyString`
whose equality and order are those of the underlying string; the claims
only depend on that content, so the wrapper is identified with it. -/
abbrev ProjectName := NonEmptyString

/-- Model of `frame::Frame` (src/frame.rs). -/
structure Frame where
  project : NonEmptyString
  id : String
  start : DateTime
  «end» : Option DateTime
  tags : List NonEmptyString
  last_edit : DateTime

/-- Model of `CompletedFrame` (src/frame.rs): a `Frame` wrapper whose
`end` is guaranteed present, the invariant every construction site in
the source maintains. -/
structure CompletedFrame where
  frame : Frame
  end_isSome : frame.«end».isSome = true

/-- Model of `CompletedFrame::from_frame`: fails iff `end` is absent. -/
def CompletedFrame.from_frame (f : Frame) : Option CompletedFrame :=
  match h : f.«end» with
  | some _ => some ⟨f, by simp [h]⟩
  | none => none

/-- Model of `CompletedFrame::end`: the present end time (the source
unwraps; the wrapper invariant makes this total). -/
def CompletedFrame.«end» (c : CompletedFrame) : DateTime :=
  c.frame.«end».get c.end_isSome

/-- Model of `Frame::set_end`: sets `end` and wraps into a
`CompletedFrame` (the source's `from_frame(..).unwrap()`). -/
def Frame.set_end (f : Frame) (e : DateTime) : CompletedFrame :=
  ⟨{ f with «end» := some e }, rfl⟩

/-- Model of `state::OngoingFrame` (src/state.rs). -/
structure OngoingFrame where
  project : ProjectName
  start : DateTime
  tags : List NonEmptyString

/-- Model of `OngoingFrame::new`. -/
def OngoingFrame.new (project : ProjectName) (start : DateTime)
    (tags : List NonEmptyString) : OngoingFrame :=
  { project := project, start := start, tags := tags }

/-- Model of `watson::FrameEdit` (src/watson.rs), the external-editor
transfer object, at the level of its accessors: the source stores
`start`/`stop` as formatted local date-time strings and parses them in
`FrameEdit::start`/`FrameEdit::stop`; the embedding holds the parsed
values directly. -/
structure FrameEdit where
  project : NonEmptyString
  start : DateTime
  stop : Option DateTime
  tags : List NonEmptyString

/-- Model of `OngoingFrame::update_from` (src/state.rs lines 160-164):
overwrites project, start and tags from the edit; the edit's `stop`
field is not consulted. -/
def OngoingFrame.update_from (o : OngoingFrame) (edit : FrameEdit) : OngoingFrame :=
  { project := edit.project, start := edit.start, tags := edit.tags }

/-- Modelled from the spec: the promotion of an `OngoingFrame` to a
`Frame` used by `StateStore::stop` and the status command (the `From`
impl lives in the newer `frame.rs` generation that is not in the tree).
Spec section 3: the promoted frame keeps project, start and tags; id and
last_edit are synthesized at promotion (passed here as `freshId` and
`now`) and `end` is absent. -/
def Frame.fromOngoing (o : OngoingFrame) (freshId : String) (now : DateTime) : Frame :=
  { project := o.project, id := freshId, start := o.start, «end» := none,
    tags := o.tags, last_edit := now }

/-- Modelled from the spec: `Frame::new` of the newer `frame.rs`
generation (called by the Watson decoding path and the stores): all
optional fields default, id freshly generated (`freshId`), start and
last_edit defaulting to the current time (`now`), end defaulting to
absent. -/
def Frame.new (project : NonEmptyString) (id : Option String) (start : Option DateTime)
    (endOpt : Option DateTime) (tags : List NonEmptyString) (last_edit : Option DateTime)
    (freshId : String) (now : DateTime) : Frame :=
  { project := project, id := id.getD freshId, start := start.getD now,
    «end» := endOpt, tags := tags, last_edit := last_edit.getD now }

/-- Model of `stores::InMemoryStore` (src/stores/in_memory_store.rs):
the completed-frame map (`HashMap<String, CompletedFrame>`, embedded as
an association list keyed by frame id) and the single ongoing-frame
slot. -/
structure InMemoryStore where
  frames : List (String × CompletedFrame)
  ongoing_frame : Option OngoingFrame

/-- Model of `StateStoreBackend::get` for `InMemoryStore`. -/
def InMemoryStore.get (s : InMemoryStore) : Option OngoingFrame :=
  s.ongoing_frame

/-- Model of `StateStoreBackend::store` for `InMemoryStore`: overwrites
the slot unconditionally. -/
def InMemoryStore.store (s : InMemoryStore) (state : OngoingFrame) : InMemoryStore :=
  { s with ongoing_frame := some state }

/-- Model of `StateStoreBackend::clear` for `InMemoryStore`: empties the
slot and reports whether a frame was present. -/
def InMemoryStore.clear (s : InMemoryStore) : InMemoryStore × Bool :=
  ({ s with ongoing_frame := none }, s.ongoing_frame.isSome)

/-- Insertion into the association list modelling the `HashMap`:
replaces the binding of an existing key, otherwise appends. -/
def insertAssoc (k : String) (v : CompletedFrame) :
    List (String × CompletedFrame) → List (String × CompletedFrame)
  | [] => [(k, v)]
  | (k', v') :: rest =>
    if k' = k then (k, v) :: rest else (k', v') :: insertAssoc k v rest

/-- Model of `FrameStore::save_frame` for `InMemoryStore`: insert, or
update in place when a frame with the same id exists. -/
def InMemoryStore.save_frame (s : InMemoryStore) (frame : CompletedFrame) : InMemoryStore :=
  { s with frames := insertAssoc frame.frame.id frame s.frames }

/-- The values of the completed-frame map, the iteration source of the
queries (`self.frames.borrow().values()`). -/
def InMemoryStore.frameValues (s : InMemoryStore) : List CompletedFrame :=
  s.frames.map Prod.snd

/-- Removal of consecutive duplicates, the model of `Vec::dedup`. -/
def dedupSorted {α : Type} [DecidableEq α] : List α → List α
  | [] => []
  | [a] => [a]
  | a :: b :: l => if a = b then dedupSorted (b :: l) else a :: dedupSorted (b :: l)

/-- Model of `FrameStore::get_projects` for `InMemoryStore` (lines
49-58): collect the project of every stored frame, sort, dedup. -/
def InMemoryStore.get_projects (s : InMemoryStore) : List ProjectName :=
  dedupSorted
    (List.insertionSort (fun a b : ProjectName => a ≤ b)
      (s.frameValues.map (fun frame => frame.frame.project)))

/-- Left fold of `Iterator::max_by_key` on the `end` key: a later
element replaces the accumulator when its key is at least as large, so
ties keep the later element, as in Rust. -/
def maxByEndAux (acc : CompletedFrame) : List CompletedFrame → CompletedFrame
  | [] => acc
  | c :: rest =>
    maxByEndAux (if acc.«end» ≤ c.«end» then c else acc) rest

/-- Model of `FrameStore::get_last_frame` for `InMemoryStore` (lines
60-63): the stored frame with maximal `end`, none when the map is
empty. -/
def InMemoryStore.get_last_frame (s : InMemoryStore) : Option CompletedFrame :=
  match s.frameValues with
  | [] => none
  | c :: rest => some (maxByEndAux c rest)

/-- Model of `FrameStore::get_frame` for `InMemoryStore`. -/
def InMemoryStore.get_frame (s : InMemoryStore) (frame_id : String) : Option CompletedFrame :=
  (s.frames.find? (fun kv => kv.1 = frame_id)).map Prod.snd

/-- Model of `FrameStore::get_frames` for `InMemoryStore` (lines 70-88):
keep the frames overlapping the requested range (`frame_start < end &&
frame_end > start`), then sort.  `Vec::sort` uses the `Ord` of
`CompletedFrame`, which the spec fixes as ordering by `start`
ascending. -/
def InMemoryStore.get_frames (s : InMemoryStore) (start «end» : DateTime) :
    List CompletedFrame :=
  List.insertionSort (fun a b => a.frame.start ≤ b.frame.start)
    (s.frameValues.filter
      (fun frame => decide (frame.frame.start < «end») && decide (start < frame.«end»)))

/-- Model of `state::StateStoreVariant` (src/state.rs lines 114-117):
which handle `get_state_store` yields.  The handles themselves carry no
data beyond the borrowed backend, so the embedding keeps only the tag
and passes the backend state explicitly to each operation. -/
inductive StateStoreVariant
  | Ongoing
  | Stopped
deriving DecidableEq, Repr

/-- Model of `state::get_state_store` (lines 121-128): Ongoing exactly
when the backend currently holds an ongoing frame. -/
def get_state_store (s : InMemoryStore) : StateStoreVariant :=
  match s.get with
  | some _ => .Ongoing
  | none => .Stopped

/-- Model of `StateStore::<Ongoing>::get_ongoing` (lines 80-85): the
source asserts the slot is occupied; the unreachable empty case is
`none`. -/
def StateStore.get_ongoing (s : InMemoryStore) : Option OngoingFrame :=
  s.get

/-- Model of `StateStore::<Ongoing>::stop` (lines 54-65): read the
ongoing frame, promote it to a `Frame`, set `end` to `at`, clear the
backend slot and return the completed frame with the Stopped-handle
store.  `freshId`/`now` feed the id and last-edit synthesized during
promotion.  `none` is the unreachable empty-slot assertion. -/
def StateStore.stop (s : InMemoryStore) (stopAt : DateTime) (freshId : String)
    (now : DateTime) : Option (CompletedFrame × InMemoryStore) :=
  match StateStore.get_ongoing s with
  | none => none
  | some ongoing =>
    let frame := Frame.fromOngoing ongoing freshId now
    let completed_frame := frame.set_end stopAt
    some (completed_frame, (s.clear).1)

/-- Model of `StateStore::<Ongoing>::cancel` (lines 67-70): clear the
slot, discarding the frame. -/
def StateStore.cancel (s : InMemoryStore) : InMemoryStore :=
  (s.clear).1

/-- Model of `StateStore::<Ongoing>::update_ongoing` (lines 72-78):
overwrite the slot with the revised ongoing frame. -/
def StateStore.update_ongoing (s : InMemoryStore) (ongoing_frame : OngoingFrame) :
    InMemoryStore :=
  s.store ongoing_frame

/-- Model of `StateStore::<Stopped>::start` (lines 99-111): write a new
`OngoingFrame` to the backend and return it with the Ongoing-handle
store. -/
def StateStore.start (s : InMemoryStore) (project : ProjectName) (start : DateTime)
    (tags : List NonEmptyString) : OngoingFrame × InMemoryStore :=
  let ongoing_frame := OngoingFrame.new project start tags
  (ongoing_frame, s.store ongoing_frame)

/-- A state-machine operation as issued by a caller of the typestate
API: the data of `start`, `stop` (with the id and now used by frame
promotion), `cancel` and `update_ongoing`. -/
inductive StateOp
  | start (project : ProjectName) (startTime : DateTime) (tags : List NonEmptyString)
  | stop (stopAt : DateTime) (freshId : String) (now : DateTime)
  | cancel
  | update_ongoing (ongoing : OngoingFrame)

/-- One step of the state machine against the in-memory backend.  The
typestate pattern makes `start` callable only through a Stopped handle
and `stop`/`cancel`/`update_ongoing` only through an Ongoing handle,
both obtained from `get_state_store`; an operation whose handle type the
current variant cannot supply is unrepresentable at a Rust call site and
leaves the backend untouched here. -/
def stepStateOp (s : InMemoryStore) (op : StateOp) : InMemoryStore :=
  match get_state_store s, op with
  | .Stopped, .start project startTime tags => (StateStore.start s project startTime tags).2
  | .Stopped, .stop _ _ _ => s
  | .Stopped, .cancel => s
  | .Stopped, .update_ongoing _ => s
  | .Ongoing, .start _ _ _ => s
  | .Ongoing, .stop stopAt freshId now =>
    match StateStore.stop s stopAt freshId now with
    | some (_, s') => s'
    | none => s
  | .Ongoing, .cancel => StateStore.cancel s
  | .Ongoing, .update_ongoing ongoing => StateStore.update_ongoing s ongoing

/-- Run a sequence of state-machine operations from an initial backend
state. -/
def runStateOps (s : InMemoryStore) (ops : List StateOp) : InMemoryStore :=
  ops.foldl stepStateOp s

/-- Number of ongoing frames held by the backend slot. -/
def ongoingCount (s : InMemoryStore) : Nat :=
  s.ongoing_frame.toList.length

/-- Model of `cli::CliError` (src/cli.rs), the variants the embedded
commands can produce.  Store errors cannot arise from the in-memory
backend, so the two wrapping variants are omitted. -/
inductive CliError
  | OngoingProject (project : ProjectName)
  | InvalidProjectName
  | NoOngoingRecording
  | FutureStopDate
  | InvalidFrame (details : Option String)
deriving DecidableEq, Repr

/-- Model of `cli::Command` for the state-changing commands the claims
exercise: `Start`, `Stop` (with its optional `--at` argument) and
`Cancel`. -/
inductive Command
  | Start (project : String) (tags : List String) (no_gap : Bool)
  | Stop (atArg : Option DateTime)
  | Cancel

/-- Model of `CommandExecutor::execute_command` (src/cli.rs lines
144-216) with the in-memory store: query `get_state_store`, branch on
the command and the variant.  `now` stands for `Local::now()`, `freshId`
for the generated frame id.  Returns the command result and the store
after the command. -/
def execute_command (s : InMemoryStore) (now : DateTime) (freshId : String)
    (command : Command) : Except CliError Unit × InMemoryStore :=
  match command with
  | .Start project tags _no_gap =>
    match s.get with
    | some ongoing => (.error (.OngoingProject ongoing.project), s)
    | none =>
      match NonEmptyString.new project with
      | none => (.error .InvalidProjectName, s)
      | some p =>
        let tagsN := tags.filterMap NonEmptyString.new
        let startTime :=
          if _no_gap then
            match s.get_last_frame with
            | some frame => frame.«end»
            | none => now
          else now
        (.ok (), (StateStore.start s p startTime tagsN).2)
  | .Stop atArg =>
    match s.get with
    | some _ =>
      let stop_datetime := atArg.getD now
      if now < stop_datetime then (.error .FutureStopDate, s)
      else
        match StateStore.stop s stop_datetime freshId now with
        | some (completed_frame, s') => (.ok (), s'.save_frame completed_frame)
        | none => (.error .NoOngoingRecording, s)
    | none => (.error .NoOngoingRecording, s)
  | .Cancel =>
    match s.get with
    | some _ => (.ok (), StateStore.cancel s)
    | none => (.error .NoOngoingRecording, s)

/-- Model of `CommandExecutor::edit_ongoing` (src/cli.rs lines 332-347):
read the ongoing frame, run the editor round trip (its outcome is the
`edited` argument; an editor failure aborts before this point), apply
`update_from` and write the result back with `update_ongoing`.  `none`
is the unreachable get-ongoing assertion on an empty slot. -/
def CommandExecutor.edit_ongoing (s : InMemoryStore) (edited : FrameEdit) :
    Option InMemoryStore :=
  match StateStore.get_ongoing s with
  | none => none
  | some ongoing_frame =>
    some (StateStore.update_ongoing s (ongoing_frame.update_from edited))

/-- JSON values as produced and consumed by the two Watson codecs.
Numbers are the i64 timestamps the formats carry. -/
inductive Json
  | null
  | bool (b : Bool)
  | num (n : Int)
  | str (s : String)
  | arr (elems : List Json)

/-- Model of `Value::as_i64`. -/
def Json.as_i64 : Json → Option Int
  | .num n => some n
  | _ => none

/-- Model of `Value::as_str`. -/
def Json.as_str : Json → Option String
  | .str s => some s
  | _ => none

/-- Model of `Value::as_array`. -/
def Json.as_array : Json → Option (List Json)
  | .arr elems => some elems
  | _ => none

/-- Hexadecimal digit for the low-control-character escapes. -/
def hexDigit (n : Nat) : Char :=
  if n < 10 then Char.ofNat (48 + n) else Char.ofNat (87 + n)

/-- JSON string escaping as performed by serde_json: quote, backslash,
the short control escapes, and a u-escape for the other control
characters. -/
def escapeChar (c : Char) : String :=
  if c = '"' then "\\\""
  else if c = '\\' then "\\\\"
  else if c = Char.ofNat 8 then "\\b"
  else if c = Char.ofNat 9 then "\\t"
  else if c = Char.ofNat 10 then "\\n"
  else if c = Char.ofNat 12 then "\\f"
  else if c = Char.ofNat 13 then "\\r"
  else if c.toNat < 32 then
    String.mk ['\\', 'u', '0', '0', hexDigit (c.toNat / 16), hexDigit (c.toNat % 16)]
  else String.mk [c]

/-- JSON rendering of a string, quotes included. -/
def jsonRenderString (s : String) : String :=
  "\"" ++ String.join (s.data.map escapeChar) ++ "\""

mutual

/-- Model of `serde_json::Value::to_string()` (its `Display`): the
compact JSON text of the value.  Applied to a string value this yields
the text with surrounding quotes. -/
def jsonRender : Json → String
  | .null => "null"
  | .bool true => "true"
  | .bool false => "false"
  | .num n => toString n
  | .str s => jsonRenderString s
  | .arr elems => "[" ++ String.intercalate "," (jsonRenderList elems) ++ "]"

/-- Renderings of the elements of a JSON array, in order. -/
def jsonRenderList : List Json → List String
  | [] => []
  | j :: rest => jsonRender j :: jsonRenderList rest

end

/-- Failure of a record parse: `err` is a recoverable `Err(String)`,
`fatal` a Rust panic (`expect`, out-of-bounds indexing), which aborts
the whole process rather than being filtered. -/
inductive PErr
  | err (msg : String)
  | fatal (msg : String)
deriving DecidableEq, Repr

/-- Lift of `Option::ok_or`: an absent value becomes a recoverable
error. -/
def okOr {α : Type} (o : Option α) (msg : String) : Except PErr α :=
  match o with
  | some v => .ok v
  | none => .error (.err msg)

/-- Lift of `Option::expect`: an absent value panics. -/
def expectSome {α : Type} (o : Option α) (msg : String) : Except PErr α :=
  match o with
  | some v => .ok v
  | none => .error (.fatal msg)

/-- Model of `array[i]` on a `Vec`: out-of-bounds indexing panics. -/
def vecIndex (xs : List Json) (i : Nat) : Except PErr Json :=
  match xs.get? i with
  | some v => .ok v
  | none => .error (.fatal "index out of bounds")

/-- Model of `CompletedFrame::as_watson_json` (src/frame.rs lines
131-147): the 6-element positional array in the order start, end,
project, id, tags, last_edit, timestamps as whole seconds. -/
def CompletedFrame.as_watson_json (c : CompletedFrame) : Json :=
  .arr [
    .num c.frame.start.timestamp,
    .num (CompletedFrame.«end» c).timestamp,
    .str c.frame.project.str,
    .str c.frame.id,
    .arr (c.frame.tags.map (fun tag => .str tag.str)),
    .num c.frame.last_edit.timestamp]

/-- Model of `CompletedFrame::from_watson_json` (src/frame.rs lines
149-192), with the source's evaluation order: each field is read by
indexing (panicking when the array is shorter), the project goes through
`NonEmptyString::new(..).expect(..)` (panicking on an empty name), and
each tag is read by calling `Value::to_string()` on the tag value — the
JSON rendering, quotes included — before the non-empty check. -/
def CompletedFrame.from_watson_json (json : Json) : Except PErr CompletedFrame := do
  let array ← okOr json.as_array "Encountered unexpected watson frame format"
  let start ← okOr (← vecIndex array 0).as_i64 "Invalid start time"
  let endTs ← okOr (← vecIndex array 1).as_i64 "Invalid end time"
  let projectStr ← okOr (← vecIndex array 2).as_str "Invalid project name"
  let project ← expectSome (NonEmptyString.new projectStr) "Invalid project name"
  let id ← okOr (← vecIndex array 3).as_str "Invalid frame ID"
  let tagsArr ← okOr (← vecIndex array 4).as_array "Invalid tags"
  let tags := tagsArr.filterMap (fun s => NonEmptyString.new (jsonRender s))
  let last_edit ← okOr (← vecIndex array 5).as_i64 "Invalid last edit time"
  let start_time := DateTime.ofTimestamp start
  let end_time := DateTime.ofTimestamp endTs
  let last_edit_time := DateTime.ofTimestamp last_edit
  .ok ⟨{ project := project, id := id, start := start_time, «end» := some end_time,
         tags := tags, last_edit := last_edit_time }, rfl⟩

/-- Model of `frame::CompletedFrameStore` (src/frame.rs lines 195-242):
the loaded completed frames in file order. -/
structure CompletedFrameStore where
  frames : List CompletedFrame

/-- Outcome of loading the completed-frames file: success, the load's
`Err(String)`, or a panic aborting the process. -/
inductive LoadResult (α : Type)
  | ok (v : α)
  | err (msg : String)
  | fatal (msg : String)

/-- Record-by-record traversal of `CompletedFrameStore::load`'s
`filter_map(|frame| CompletedFrame::from_watson_json(frame).ok())`:
records whose parse returns `Err` are dropped; a panicking record aborts
the whole load. -/
def loadRecords : List Json → LoadResult (List CompletedFrame)
  | [] => .ok []
  | j :: rest =>
    match CompletedFrame.from_watson_json j with
    | .ok c =>
      match loadRecords rest with
      | .ok cs => .ok (c :: cs)
      | .err m => .err m
      | .fatal m => .fatal m
    | .error (.err _) => loadRecords rest
    | .error (.fatal m) => .fatal m

/-- Model of `CompletedFrameStore::load` (src/frame.rs lines 200-217)
after the file has been read and parsed into a JSON value: a non-array
top level is an error, otherwise the records are filtered through
`from_watson_json`. -/
def CompletedFrameStore.load_from_json : Json → LoadResult (List CompletedFrame)
  | .arr frames => loadRecords frames
  | _ => .err "Expected an array of frames in file"

/-- Model of `CompletedFrameStore::get_projects` (src/frame.rs lines
235-237): the project of every stored frame, in order, with no
deduplication and no sort. -/
def CompletedFrameStore.get_projects (s : CompletedFrameStore) : List NonEmptyString :=
  s.frames.map (fun f => f.frame.project)

/-- Model of `CompletedFrameStore::get_last_frame` (src/frame.rs lines
239-241): the last stored frame in file order. -/
def CompletedFrameStore.get_last_frame (s : CompletedFrameStore) : Option CompletedFrame :=
  s.frames.getLast?

/-- Model of `watson::Frame` (src/watson.rs lines 21-29): the wire
representation with whole-second timestamps. -/
structure WatsonFrame where
  start_timestamp : Int
  end_timestamp : Int
  project : NonEmptyString
  id : String
  tags : List NonEmptyString
  last_edit_timestamp : Int
deriving DecidableEq, Repr

/-- Model of `From<frame::CompletedFrame> for watson::Frame`
(src/watson.rs lines 31-42): timestamps via `timestamp()`, the other
fields copied. -/
def WatsonFrame.fromCompleted (c : CompletedFrame) : WatsonFrame :=
  { start_timestamp := c.frame.start.timestamp,
    end_timestamp := (CompletedFrame.«end» c).timestamp,
    project := c.frame.project,
    id := c.frame.id,
    tags := c.frame.tags,
    last_edit_timestamp := c.frame.last_edit.timestamp }

/-- Model of `From<watson::Frame> for frame::CompletedFrame`
(src/watson.rs lines 44-60): `Frame::new` with every optional argument
supplied, then `from_frame(..).unwrap()` (which cannot fail, the end
being present). -/
def WatsonFrame.toCompleted (w : WatsonFrame) : CompletedFrame :=
  ⟨Frame.new w.project (some w.id) (some (DateTime.ofTimestamp w.start_timestamp))
      (some (DateTime.ofTimestamp w.end_timestamp)) w.tags
      (some (DateTime.ofTimestamp w.last_edit_timestamp)) "" ⟨0, 0⟩, rfl⟩

/-- Model of `impl Serialize for watson::Frame` (src/watson.rs lines
69-83): the 6-element sequence start, end, project, id, tags, last_edit;
`NonEmptyString` serializes as its plain inner string. -/
def WatsonFrame.serialize (w : WatsonFrame) : Json :=
  .arr [
    .num w.start_timestamp,
    .num w.end_timestamp,
    .str w.project.str,
    .str w.id,
    .arr (w.tags.map (fun tag => .str tag.str)),
    .num w.last_edit_timestamp]

/-- Model of `serde_json::from_value::<NonEmptyString>`: the derived
deserializer accepts any JSON string, with no emptiness check. -/
def decodeNonEmptyString (j : Json) : Except String NonEmptyString :=
  match j.as_str with
  | some s => .ok ⟨s⟩
  | none => .error "invalid type: expected a string"

/-- Element-by-element decoding of a tag vector: every element must
decode, a failing element fails the whole vector. -/
def decodeTagList : List Json → Except String (List NonEmptyString)
  | [] => .ok []
  | j :: rest => do
    let tag ← decodeNonEmptyString j
    let tags ← decodeTagList rest
    .ok (tag :: tags)

/-- Model of `serde_json::from_value::<Vec<NonEmptyString>>`. -/
def decodeTags : Json → Except String (List NonEmptyString)
  | .arr elems => decodeTagList elems
  | _ => .error "invalid type: expected a sequence"

/-- Model of `impl Deserialize for watson::Frame` (src/watson.rs lines
86-130): a sequence of exactly 6 JSON values, read positionally;
timestamps via `as_i64`, id via `as_str`, project and tags through the
derived `NonEmptyString` deserializers. -/
def WatsonFrame.deserialize (j : Json) : Except String WatsonFrame :=
  match j with
  | .arr [v0, v1, v2, v3, v4, v5] => do
    let start_timestamp ← match v0.as_i64 with
      | some n => Except.ok n
      | none => Except.error "Invalid start_timestamp"
    let end_timestamp ← match v1.as_i64 with
      | some n => Except.ok n
      | none => Except.error "Invalid end_timestamp"
    let project ← decodeNonEmptyString v2
    let id ← match v3.as_str with
      | some s => Except.ok s
      | none => Except.error "Invalid id"
    let tags ← decodeTags v4
    let last_edit_timestamp ← match v5.as_i64 with
      | some n => Except.ok n
      | none => Except.error "Invalid last_edit_timestamp"
    .ok { start_timestamp := start_timestamp, end_timestamp := end_timestamp,
          project := project, id := id, tags := tags,
          last_edit_timestamp := last_edit_timestamp }
  | _ => .error "invalid length, expected an array of 6 elements"

/-- Model of `serde_json::from_str::<Vec<watson::Frame>>` on a parsed
JSON value, as called by `watson::Store::load` (src/watson.rs lines
386-400): the top level must be an array and every record must
deserialize; one failing record fails the whole load. -/
def watsonDeserializeRecords : List Json → Except String (List WatsonFrame)
  | [] => .ok []
  | j :: rest => do
    let w ← WatsonFrame.deserialize j
    let ws ← watsonDeserializeRecords rest
    .ok (w :: ws)

/-- Model of the top level of `serde_json::from_str::<Vec<watson::Frame>>`. -/
def watsonDeserializeFrames : Json → Except String (List WatsonFrame)
  | .arr records => watsonDeserializeRecords records
  | _ => .error "invalid type: expected a sequence"

/-- Model of `watson::Store::load` on the parsed contents of an existing
frames file: deserialize the vector of wire frames and convert each to a
`CompletedFrame`. -/
def WatsonStore.load_from_json (j : Json) : Except String (List CompletedFrame) :=
  (watsonDeserializeFrames j).map (fun ws => ws.map WatsonFrame.toCompleted)

/-- Model of `watson::Store::get_projects` (src/watson.rs lines
430-437) on the loaded frames: the project of every stored frame, with
no deduplication and no sort. -/
def WatsonStore.get_projects (frames : List CompletedFrame) : List NonEmptyString :=
  frames.map (fun f => f.frame.project)

/-- Model of `watson::Store::get_last_frame` (src/watson.rs lines
439-444) on the loaded frames: the last frame in file order. -/
def WatsonStore.get_last_frame (frames : List CompletedFrame) : Option CompletedFrame :=
  frames.getLast?

/-- Membership is unchanged by consecutive-duplicate removal. -/
theorem mem_dedupSorted {α : Type} [DecidableEq α] (a : α) :
    ∀ l : List α, a ∈ dedupSorted l ↔ a ∈ l
  | [] => by simp [dedupSorted]
  | [b] => by simp [dedupSorted]
  | b :: c :: l => by
    by_cases h : b = c
    · subst h
      rw [dedupSorted, if_pos rfl, mem_dedupSorted a (b :: l)]
      simp
    · rw [dedupSorted, if_neg h]
      simp only [List.mem_cons, mem_dedupSorted a (c :: l)]

/-- Dedup of a weakly sorted list is strictly sorted. -/
theorem sorted_lt_dedupSorted {α : Type} [LinearOrder α] [DecidableEq α] :
    ∀ l : List α, List.Sorted (· ≤ ·) l → List.Sorted (· < ·) (dedupSorted l)
  | [] => fun _ => by simp [dedupSorted]
  | [b] => fun _ => by simp [dedupSorted]
  | b :: c :: l => fun h => by
    by_cases hbc : b = c
    · subst hbc
      rw [dedupSorted, if_pos rfl]
      exact sorted_lt_dedupSorted (b :: l) h.of_cons
    · rw [dedupSorted, if_neg hbc]
      have htail : List.Sorted (· ≤ ·) (c :: l) := h.of_cons
      rw [List.sorted_cons]
      refine ⟨?_, sorted_lt_dedupSorted (c :: l) htail⟩
      intro x hx
      have hxcl : x ∈ c :: l := (mem_dedupSorted x (c :: l)).mp hx
      have hbc' : b < c := lt_of_le_of_ne (List.rel_of_sorted_cons h c (by simp)) hbc
      have hcx : c ≤ x := by
        rcases List.mem_cons.mp hxcl with rfl | hxl
        · exact le_refl x
        · exact List.rel_of_sorted_cons htail x hxl
      exact lt_of_lt_of_le hbc' hcx

/-- The max-by-end fold returns its accumulator or a list element. -/
theorem maxByEndAux_mem (acc : CompletedFrame) :
    ∀ l : List CompletedFrame, maxByEndAux acc l = acc ∨ maxByEndAux acc l ∈ l
  | [] => Or.inl rfl
  | c :: rest => by
    rcases maxByEndAux_mem (if acc.«end» ≤ c.«end» then c else acc) rest with h | h
    · rw [maxByEndAux, h]
      by_cases hle : acc.«end» ≤ c.«end»
      · simp [hle]
      · simp [hle]
    · right
      rw [maxByEndAux]
      exact List.mem_cons_of_mem c h

/-- The max-by-end fold dominates the accumulator and every element. -/
theorem maxByEndAux_le (acc : CompletedFrame) :
    ∀ l : List CompletedFrame, ∀ d : CompletedFrame, (d = acc ∨ d ∈ l) →
      CompletedFrame.«end» d ≤ CompletedFrame.«end» (maxByEndAux acc l)
  | [], d, hd => by
    rcases hd with rfl | h
    · exact le_refl _
    · cases h
  | c :: rest, d, hd => by
    rw [maxByEndAux]
    by_cases hle : acc.«end» ≤ c.«end»
    · rw [if_pos hle]
      have hc : CompletedFrame.«end» c ≤ CompletedFrame.«end» (maxByEndAux c rest) :=
        maxByEndAux_le c rest c (Or.inl rfl)
      rcases hd with heq | hmem
      · rw [heq]
        exact le_trans hle hc
      · rcases List.mem_cons.mp hmem with heq | hrest
        · rw [heq]
          exact hc
        · exact maxByEndAux_le c rest d (Or.inr hrest)
    · rw [if_neg hle]
      have ha : CompletedFrame.«end» acc ≤ CompletedFrame.«end» (maxByEndAux acc rest) :=
        maxByEndAux_le acc rest acc (Or.inl rfl)
      rcases hd with heq | hmem
      · rw [heq]
        exact ha
      · rcases List.mem_cons.mp hmem with heq | hrest
        · rw [heq]
          exact le_trans (le_of_not_le hle) ha
        · exact maxByEndAux_le acc rest d (Or.inr hrest)

/-- Decoding the serialized form of a tag list recovers it exactly. -/
theorem decodeTagList_encode (ts : List NonEmptyString) :
    decodeTagList (ts.map (fun tag => Json.str tag.str)) = Except.ok ts := by
  induction ts with
  | nil => rfl
  | cons t rest ih =>
    simp only [List.map_cons, decodeTagList]
    rw [show decodeNonEmptyString (Json.str t.str) = Except.ok t from rfl, ih]
    rfl

/-- Helper equality: the wrapped frame's end is the accessor's value. -/
theorem CompletedFrame.end_eq (c : CompletedFrame) :
    c.frame.«end» = some (CompletedFrame.«end» c) :=
  (Option.some_get c.end_isSome).symm

/-- Concrete completed frame with whole-second times, for the concrete
instances below. -/
def mkCompleted (idStr : String) (p : String) (s e : Int) : CompletedFrame :=
  ⟨{ project := ⟨p⟩, id := idStr, start := ⟨s, 0⟩, «end» := some ⟨e, 0⟩,
     tags := [], last_edit := ⟨e, 0⟩ }, rfl⟩

/-- Concrete ongoing frame. -/
def demoOngoing : OngoingFrame := ⟨⟨"alpha"⟩, ⟨100, 0⟩, []⟩

/-- Concrete backend state holding an ongoing frame. -/
def demoStoreOngoing : InMemoryStore := ⟨[], some demoOngoing⟩

/-- C1: for every sequence of state-machine operations against the
backend, the slot holds zero or one ongoing frame; `start` is only
reachable through a Stopped handle (issued against an Ongoing variant it
cannot run and the backend is untouched); `stop`/`cancel` (and
`update_ongoing`) are only reachable through an Ongoing handle; and
`get_state_store` reports Ongoing exactly when the slot is occupied. -/
theorem state_machine_single_ongoing :
    (∀ (s0 : InMemoryStore) (ops : List StateOp), ongoingCount (runStateOps s0 ops) ≤ 1)
    ∧ (∀ s : InMemoryStore, get_state_store s = .Ongoing ↔ s.ongoing_frame.isSome = true)
    ∧ (∀ (s : InMemoryStore) (p : ProjectName) (st : DateTime) (tags : List NonEmptyString),
        get_state_store s = .Ongoing → stepStateOp s (.start p st tags) = s)
    ∧ (∀ (s : InMemoryStore) (a n : DateTime) (i : String),
        get_state_store s = .Stopped → stepStateOp s (.stop a i n) = s)
    ∧ (∀ s : InMemoryStore, get_state_store s = .Stopped → stepStateOp s .cancel = s)
    ∧ (∀ (s : InMemoryStore) (o : OngoingFrame),
        get_state_store s = .Stopped → stepStateOp s (.update_ongoing o) = s) := by
  refine ⟨?_, ?_, ?_, ?_, ?_, ?_⟩
  · intro s0 ops
    cases h : (runStateOps s0 ops).ongoing_frame <;> simp [ongoingCount, h]
  · intro s
    cases h : s.ongoing_frame <;>
      simp [get_state_store, InMemoryStore.get, h]
  · intro s p st tags h
    simp [stepStateOp, h]
  · intro s a n i h
    simp [stepStateOp, h]
  · intro s h
    simp [stepStateOp, h]
  · intro s o h
    simp [stepStateOp, h]

/-- Witness for C1 at concrete backend states: with a frame in the slot
the variant is Ongoing and a `start` leaves the backend untouched; with
an empty slot the variant is Stopped and a `cancel` leaves it
untouched. -/
theorem state_machine_single_ongoing_witness :
    get_state_store demoStoreOngoing = StateStoreVariant.Ongoing
    ∧ stepStateOp demoStoreOngoing (.start ⟨"beta"⟩ ⟨200, 0⟩ []) = demoStoreOngoing
    ∧ get_state_store ⟨[], none⟩ = StateStoreVariant.Stopped
    ∧ stepStateOp ⟨[], none⟩ .cancel = (⟨[], none⟩ : InMemoryStore) :=
  ⟨rfl,
   state_machine_single_ongoing.2.2.1 demoStoreOngoing ⟨"beta"⟩ ⟨200, 0⟩ [] rfl,
   rfl,
   state_machine_single_ongoing.2.2.2.2.1 ⟨[], none⟩ rfl⟩

/-- C2: stopping an Ongoing store whose slot holds a frame started at
`o.start` yields a completed frame with that unchanged start and end
equal to the stop time, clears the slot, and `get_state_store` on the
resulting backend reports Stopped. -/
theorem stop_produces_completed_and_clears (s : InMemoryStore) (o : OngoingFrame)
    (stopAt : DateTime) (freshId : String) (now : DateTime)
    (h : s.ongoing_frame = some o) :
    ∃ (c : CompletedFrame) (s' : InMemoryStore),
      StateStore.stop s stopAt freshId now = some (c, s')
      ∧ c.frame.start = o.start
      ∧ CompletedFrame.«end» c = stopAt
      ∧ s'.ongoing_frame = none
      ∧ get_state_store s' = .Stopped := by
  refine ⟨(Frame.fromOngoing o freshId now).set_end stopAt, (s.clear).1, ?_, rfl, rfl, rfl, rfl⟩
  simp [StateStore.stop, StateStore.get_ongoing, InMemoryStore.get, h]

/-- Witness for C2 at a concrete Ongoing backend. -/
theorem stop_produces_completed_and_clears_witness :
    ∃ (c : CompletedFrame) (s' : InMemoryStore),
      StateStore.stop demoStoreOngoing ⟨250, 0⟩ "fid" ⟨251, 0⟩ = some (c, s')
      ∧ c.frame.start = demoOngoing.start
      ∧ CompletedFrame.«end» c = ⟨250, 0⟩
      ∧ s'.ongoing_frame = none
      ∧ get_state_store s' = .Stopped :=
  stop_produces_completed_and_clears demoStoreOngoing demoOngoing ⟨250, 0⟩ "fid" ⟨251, 0⟩ rfl

/-- C9: `from_frame` fails exactly on frames without an end; on a frame
with end `t` it succeeds and the completed frame's `end()` is `t`; and
every `CompletedFrame` value has a present end. -/
theorem from_frame_gates_completion :
    (∀ f : Frame, f.«end» = none → CompletedFrame.from_frame f = none)
    ∧ (∀ (f : Frame) (t : DateTime), f.«end» = some t →
        ∃ c : CompletedFrame,
          CompletedFrame.from_frame f = some c ∧ CompletedFrame.«end» c = t)
    ∧ (∀ c : CompletedFrame, c.frame.«end».isSome = true) := by
  refine ⟨?_, ?_, fun c => c.end_isSome⟩
  · intro f h
    unfold CompletedFrame.from_frame
    split
    · rename_i t heq
      rw [h] at heq
      cases heq
    · rfl
  · intro f t h
    refine ⟨⟨f, by simp [h]⟩, ?_, ?_⟩
    · unfold CompletedFrame.from_frame
      split
      · rfl
      · rename_i heq
        rw [h] at heq
        cases heq
    · have hget : ∀ (o : Option DateTime) (hp : o.isSome = true), o = some t → o.get hp = t := by
        intro o hp ho
        subst ho
        rfl
      exact hget _ _ h

/-- Witness for C9 at concrete frames with and without an end. -/
theorem from_frame_gates_completion_witness :
    CompletedFrame.from_frame
      { project := ⟨"alpha"⟩, id := "x", start := ⟨0, 0⟩, «end» := none,
        tags := [], last_edit := ⟨0, 0⟩ } = none
    ∧ ∃ c : CompletedFrame,
        CompletedFrame.from_frame
          { project := ⟨"alpha"⟩, id := "x", start := ⟨0, 0⟩, «end» := some ⟨9, 0⟩,
            tags := [], last_edit := ⟨0, 0⟩ } = some c
        ∧ CompletedFrame.«end» c = ⟨9, 0⟩ :=
  ⟨from_frame_gates_completion.1 _ rfl,
   from_frame_gates_completion.2.1 _ ⟨9, 0⟩ rfl⟩

/-- C10: editing an ongoing frame applies only the edit's project,
start and tags; the edit's `stop` field is discarded entirely (the
updated frame does not depend on it), and after the write-back the slot
still holds an ongoing frame, with the frames map untouched. -/
theorem edit_ongoing_discards_stop (s : InMemoryStore) (o : OngoingFrame)
    (edit : FrameEdit) (h : s.ongoing_frame = some o) :
    ∃ s' : InMemoryStore,
      CommandExecutor.edit_ongoing s edit = some s'
      ∧ s'.ongoing_frame = some (o.update_from edit)
      ∧ (o.update_from edit).project = edit.project
      ∧ (o.update_from edit).start = edit.start
      ∧ (o.update_from edit).tags = edit.tags
      ∧ (∀ stopVal : Option DateTime,
          o.update_from { edit with stop := stopVal } = o.update_from edit)
      ∧ s'.frames = s.frames := by
  refine ⟨s.store (o.update_from edit), ?_, rfl, rfl, rfl, rfl, fun stopVal => rfl, rfl⟩
  simp [CommandExecutor.edit_ongoing, StateStore.get_ongoing, InMemoryStore.get, h,
    StateStore.update_ongoing]

/-- Witness for C10: a concrete edit carrying a stop timestamp leaves
the slot ongoing and is applied without it. -/
theorem edit_ongoing_discards_stop_witness :
    ∃ s' : InMemoryStore,
      CommandExecutor.edit_ongoing demoStoreOngoing
        ⟨⟨"gamma"⟩, ⟨110, 0⟩, some ⟨300, 0⟩, []⟩ = some s'
      ∧ s'.ongoing_frame =
          some (demoOngoing.update_from ⟨⟨"gamma"⟩, ⟨110, 0⟩, some ⟨300, 0⟩, []⟩)
      ∧ (demoOngoing.update_from ⟨⟨"gamma"⟩, ⟨110, 0⟩, some ⟨300, 0⟩, []⟩).project = ⟨"gamma"⟩
      ∧ (demoOngoing.update_from ⟨⟨"gamma"⟩, ⟨110, 0⟩, some ⟨300, 0⟩, []⟩).start = ⟨110, 0⟩
      ∧ (demoOngoing.update_from ⟨⟨"gamma"⟩, ⟨110, 0⟩, some ⟨300, 0⟩, []⟩).tags = []
      ∧ (∀ stopVal : Option DateTime,
          demoOngoing.update_from ⟨⟨"gamma"⟩, ⟨110, 0⟩, stopVal, []⟩ =
            demoOngoing.update_from ⟨⟨"gamma"⟩, ⟨110, 0⟩, some ⟨300, 0⟩, []⟩)
      ∧ s'.frames = demoStoreOngoing.frames :=
  edit_ongoing_discards_stop demoStoreOngoing demoOngoing
    ⟨⟨"gamma"⟩, ⟨110, 0⟩, some ⟨300, 0⟩, []⟩ rfl

/-- C3: `get_frames(from, to)` returns exactly the stored completed
frames overlapping the half-open window, i.e. those with
`start < to` and `end > from`, partial overlaps included. -/
theorem get_frames_overlap_filter (s : InMemoryStore) (fromT toT : DateTime)
    (c : CompletedFrame) :
    c ∈ s.get_frames fromT toT ↔
      (c ∈ s.frameValues ∧ c.frame.start < toT ∧ fromT < CompletedFrame.«end» c) := by
  unfold InMemoryStore.get_frames
  rw [List.mem_insertionSort, List.mem_filter]
  simp [and_assoc]

/-- Concrete frames for the window-query instance: A = [0900, 1000),
B = [1000, 1100), C = [1200, 1300) on a minutes-as-seconds scale. -/
def frameA : CompletedFrame := mkCompleted "A" "alpha" 540 600

/-- Frame B of the window-query instance. -/
def frameB : CompletedFrame := mkCompleted "B" "alpha" 600 660

/-- Frame C of the window-query instance. -/
def frameC : CompletedFrame := mkCompleted "C" "alpha" 720 780

/-- Store holding the three query-instance frames. -/
def c3store : InMemoryStore :=
  ⟨[("A", frameA), ("B", frameB), ("C", frameC)], none⟩

/-- Concrete instance of C3: querying [0930, 1030) returns A and B
(both partially inside the window) and excludes C. -/
theorem get_frames_overlap_filter_witness :
    frameA ∈ c3store.get_frames ⟨570, 0⟩ ⟨630, 0⟩
    ∧ frameB ∈ c3store.get_frames ⟨570, 0⟩ ⟨630, 0⟩
    ∧ frameC ∉ c3store.get_frames ⟨570, 0⟩ ⟨630, 0⟩ :=
  ⟨(get_frames_overlap_filter c3store ⟨570, 0⟩ ⟨630, 0⟩ frameA).mpr
      ⟨by simp [c3store, InMemoryStore.frameValues], by decide, by decide⟩,
   (get_frames_overlap_filter c3store ⟨570, 0⟩ ⟨630, 0⟩ frameB).mpr
      ⟨by simp [c3store, InMemoryStore.frameValues], by decide, by decide⟩,
   fun hmem => by
     have h := (get_frames_overlap_filter c3store ⟨570, 0⟩ ⟨630, 0⟩ frameC).mp hmem
     exact absurd h.2.1 (by decide)⟩

/-- C5: a stop command with an explicit timestamp strictly later than
the current time fails with `FutureStopDate` and leaves the store
untouched: the slot and the frames map are unchanged and the state
remains Ongoing. -/
theorem stop_future_date_rejected (s : InMemoryStore) (now t : DateTime)
    (freshId : String) (h : get_state_store s = .Ongoing) (hfut : now < t) :
    execute_command s now freshId (.Stop (some t)) = (.error .FutureStopDate, s)
    ∧ (execute_command s now freshId (.Stop (some t))).2.ongoing_frame = s.ongoing_frame
    ∧ (execute_command s now freshId (.Stop (some t))).2.frames = s.frames
    ∧ get_state_store (execute_command s now freshId (.Stop (some t))).2 = .Ongoing := by
  have hsome : ∃ o, s.get = some o := by
    unfold get_state_store at h
    cases hg : s.get with
    | none =>
      rw [hg] at h
      cases h
    | some o => exact ⟨o, rfl⟩
  obtain ⟨o, ho⟩ := hsome
  have hmain : execute_command s now freshId (.Stop (some t)) = (.error .FutureStopDate, s) := by
    simp [execute_command, ho, hfut]
  refine ⟨hmain, ?_, ?_, ?_⟩
  · rw [hmain]
  · rw [hmain]
  · rw [hmain]
    exact h

/-- Witness for C5: stopping the concrete Ongoing store one second in
the future is rejected and the store is unchanged. -/
theorem stop_future_date_rejected_witness :
    execute_command demoStoreOngoing ⟨200, 0⟩ "fid" (.Stop (some ⟨201, 0⟩)) =
      (.error .FutureStopDate, demoStoreOngoing)
    ∧ (execute_command demoStoreOngoing ⟨200, 0⟩ "fid" (.Stop (some ⟨201, 0⟩))).2.ongoing_frame =
        demoStoreOngoing.ongoing_frame
    ∧ (execute_command demoStoreOngoing ⟨200, 0⟩ "fid" (.Stop (some ⟨201, 0⟩))).2.frames =
        demoStoreOngoing.frames
    ∧ get_state_store
        (execute_command demoStoreOngoing ⟨200, 0⟩ "fid" (.Stop (some ⟨201, 0⟩))).2 = .Ongoing :=
  stop_future_date_rejected demoStoreOngoing ⟨200, 0⟩ ⟨201, 0⟩ "fid" rfl (by decide)

/-- C6 (amended): for the in-memory store, `get_projects` returns the
projects of the stored frames deduplicated (each name exactly once) and
sorted. -/
theorem get_projects_dedup_sorted (s : InMemoryStore) :
    (∀ p : ProjectName,
      p ∈ s.get_projects ↔ p ∈ s.frameValues.map (fun c => c.frame.project))
    ∧ s.get_projects.Nodup
    ∧ List.Sorted (fun a b : ProjectName => a ≤ b) s.get_projects := by
  unfold InMemoryStore.get_projects
  have hsorted :
      List.Sorted (fun a b : ProjectName => a ≤ b)
        (List.insertionSort (fun a b : ProjectName => a ≤ b)
          (s.frameValues.map (fun c => c.frame.project))) :=
    List.sorted_insertionSort _ _
  have hlt := sorted_lt_dedupSorted _ hsorted
  refine ⟨?_, ?_, ?_⟩
  · intro p
    rw [mem_dedupSorted p _, List.mem_insertionSort]
  · exact List.Pairwise.imp ne_of_lt hlt
  · exact List.Pairwise.imp le_of_lt hlt

/-- Counterexample for C6 as stated: `CompletedFrameStore::get_projects`
(and likewise `watson::Store::get_projects`) performs no deduplication —
a store holding two frames of the same project reports that project
twice. -/
theorem get_projects_no_dedup_counterexample :
    CompletedFrameStore.get_projects ⟨[mkCompleted "a1" "alpha" 0 10,
                                       mkCompleted "a2" "alpha" 20 30]⟩ =
      [⟨"alpha"⟩, ⟨"alpha"⟩]
    ∧ ¬ ([⟨"alpha"⟩, ⟨"alpha"⟩] : List NonEmptyString).Nodup
    ∧ WatsonStore.get_projects [mkCompleted "a1" "alpha" 0 10,
                                mkCompleted "a2" "alpha" 20 30] =
        [⟨"alpha"⟩, ⟨"alpha"⟩] :=
  ⟨rfl, by decide, rfl⟩

/-- C7 (amended): for the in-memory store, `get_last_frame` returns
none on an empty store and otherwise a stored frame whose `end` is
maximal among all stored frames. -/
theorem get_last_frame_max_end (s : InMemoryStore) :
    (s.frameValues = [] → s.get_last_frame = none)
    ∧ (s.frameValues ≠ [] →
        ∃ c : CompletedFrame,
          s.get_last_frame = some c ∧ c ∈ s.frameValues
          ∧ ∀ d ∈ s.frameValues, CompletedFrame.«end» d ≤ CompletedFrame.«end» c) := by
  constructor
  · intro h
    simp [InMemoryStore.get_last_frame, h]
  · intro h
    cases hv : s.frameValues with
    | nil => exact absurd hv h
    | cons c rest =>
      refine ⟨maxByEndAux c rest, by simp [InMemoryStore.get_last_frame, hv], ?_, ?_⟩
      · rcases maxByEndAux_mem c rest with he | hm
        · rw [he]
          exact List.mem_cons_self c rest
        · exact List.mem_cons_of_mem c hm
      · intro d hd
        rcases List.mem_cons.mp hd with heq | hm
        · exact maxByEndAux_le c rest d (Or.inl heq)
        · exact maxByEndAux_le c rest d (Or.inr hm)

/-- Witness for C7 on concrete stores: the empty store yields none; a
store whose later-inserted frame ends earlier still yields the
maximal-end frame. -/
theorem get_last_frame_max_end_witness :
    InMemoryStore.get_last_frame ⟨[], none⟩ = none
    ∧ ∃ c : CompletedFrame,
        InMemoryStore.get_last_frame
          ⟨[("h", mkCompleted "h" "alpha" 0 100), ("l", mkCompleted "l" "alpha" 50 60)], none⟩ =
          some c
        ∧ c ∈ InMemoryStore.frameValues
            ⟨[("h", mkCompleted "h" "alpha" 0 100), ("l", mkCompleted "l" "alpha" 50 60)], none⟩
        ∧ ∀ d ∈ InMemoryStore.frameValues
            ⟨[("h", mkCompleted "h" "alpha" 0 100), ("l", mkCompleted "l" "alpha" 50 60)], none⟩,
            CompletedFrame.«end» d ≤ CompletedFrame.«end» c :=
  ⟨(get_last_frame_max_end ⟨[], none⟩).1 rfl,
   (get_last_frame_max_end _).2 (by simp [InMemoryStore.frameValues])⟩

/-- Counterexample for C7 as stated: `CompletedFrameStore::get_last_frame`
returns the last frame in file order, which here ends at 60 while the
store also holds a frame ending at 100. -/
theorem get_last_frame_not_max_counterexample :
    CompletedFrameStore.get_last_frame ⟨[mkCompleted "h" "alpha" 0 100,
                                         mkCompleted "l" "alpha" 50 60]⟩ =
      some (mkCompleted "l" "alpha" 50 60)
    ∧ mkCompleted "h" "alpha" 0 100 ∈
        (⟨[mkCompleted "h" "alpha" 0 100, mkCompleted "l" "alpha" 50 60]⟩ :
          CompletedFrameStore).frames
    ∧ CompletedFrame.«end» (mkCompleted "l" "alpha" 50 60) <
        CompletedFrame.«end» (mkCompleted "h" "alpha" 0 100) := by
  refine ⟨?_, ?_, ?_⟩
  · rfl
  · simp [CompletedFrameStore.frames]
  · decide

/-- Deserializing the serialized form of a wire frame recovers it
exactly. -/
theorem watson_deserialize_serialize (w : WatsonFrame) :
    WatsonFrame.deserialize (WatsonFrame.serialize w) = .ok w := by
  cases w with
  | mk st en p i tg le =>
    have htags : decodeTags (.arr (tg.map (fun tag => Json.str tag.str))) = Except.ok tg :=
      decodeTagList_encode tg
    simp [WatsonFrame.serialize, WatsonFrame.deserialize, Json.as_i64, Json.as_str,
      decodeNonEmptyString, htags]
    rfl

/-- Concrete completed frame carrying one tag, for the tag-quoting
defect instance. -/
def tagFrame : CompletedFrame :=
  ⟨{ project := ⟨"p"⟩, id := "f1", start := ⟨0, 0⟩, «end» := some ⟨100, 0⟩,
     tags := [⟨"a"⟩], last_edit := ⟨100, 0⟩ }, rfl⟩

/-- C4: through the `watson::Frame` codec the positional 6-element
round trip preserves project, id and tags and truncates start, end and
last_edit to whole seconds, for every completed frame; through the
legacy `frame.rs` codec, however, decoding the encoding of a frame
tagged "a" yields the tag rendered as JSON text, quotes included, so
that codec does not preserve tags. -/
theorem watson_roundtrip_with_legacy_tag_defect :
    (∀ c : CompletedFrame,
      WatsonFrame.deserialize (WatsonFrame.serialize (WatsonFrame.fromCompleted c)) =
        .ok (WatsonFrame.fromCompleted c)
      ∧ (WatsonFrame.toCompleted (WatsonFrame.fromCompleted c)).frame.project = c.frame.project
      ∧ (WatsonFrame.toCompleted (WatsonFrame.fromCompleted c)).frame.id = c.frame.id
      ∧ (WatsonFrame.toCompleted (WatsonFrame.fromCompleted c)).frame.tags = c.frame.tags
      ∧ (WatsonFrame.toCompleted (WatsonFrame.fromCompleted c)).frame.start =
          c.frame.start.truncate
      ∧ CompletedFrame.«end» (WatsonFrame.toCompleted (WatsonFrame.fromCompleted c)) =
          (CompletedFrame.«end» c).truncate
      ∧ (WatsonFrame.toCompleted (WatsonFrame.fromCompleted c)).frame.last_edit =
          c.frame.last_edit.truncate)
    ∧ Except.map (fun c => c.frame.tags)
        (CompletedFrame.from_watson_json (CompletedFrame.as_watson_json tagFrame)) =
        .ok [⟨"\"a\""⟩]
    ∧ tagFrame.frame.tags = [⟨"a"⟩] := by
  refine ⟨?_, by rfl, rfl⟩
  intro c
  exact ⟨watson_deserialize_serialize (WatsonFrame.fromCompleted c),
    rfl, rfl, rfl, rfl, rfl, rfl⟩

/-- Whether a record's legacy parse panics (out-of-bounds index or
empty project name) instead of returning a result. -/
def parseFatal (j : Json) : Bool :=
  match CompletedFrame.from_watson_json j with
  | .error (.fatal _) => true
  | _ => false

/-- Record traversal of the legacy load keeps exactly the records whose
parse succeeds, when no record panics. -/
theorem loadRecords_filters (js : List Json) (h : ∀ j ∈ js, parseFatal j = false) :
    loadRecords js =
      .ok (js.filterMap (fun j => (CompletedFrame.from_watson_json j).toOption)) := by
  induction js with
  | nil => rfl
  | cons j rest ih =>
    have hj := h j (List.mem_cons_self j rest)
    have hrest := ih (fun x hx => h x (List.mem_cons_of_mem j hx))
    cases hpj : CompletedFrame.from_watson_json j with
    | ok c =>
      simp [loadRecords, hpj, hrest, List.filterMap_cons, Except.toOption]
    | error e =>
      cases e with
      | err m =>
        simp [loadRecords, hpj, hrest, List.filterMap_cons, Except.toOption]
      | fatal m =>
        rw [parseFatal] at hj
        rw [hpj] at hj
        cases hj

/-- C8 (amended): on a completed-frames file whose top level is a JSON
array, `CompletedFrameStore::load` keeps exactly the records that parse
as valid frame records and drops each record whose parse fails with an
error, provided no record panics the parser (a too-short array record
or an empty project name aborts the process instead of being
dropped). -/
theorem load_drops_unparseable_records (js : List Json)
    (h : ∀ j ∈ js, parseFatal j = false) :
    CompletedFrameStore.load_from_json (.arr js) =
      .ok (js.filterMap (fun j => (CompletedFrame.from_watson_json j).toOption)) :=
  loadRecords_filters js h

/-- A well-formed 6-element frame record. -/
def goodRecord : Json :=
  .arr [.num 0, .num 100, .str "alpha", .str "f1", .arr [], .num 100]

/-- Witness for C8: a file holding one good record and one non-array
record loads to exactly the good record's frame. -/
theorem load_drops_unparseable_records_witness :
    (∀ j ∈ [goodRecord, Json.null], parseFatal j = false)
    ∧ CompletedFrameStore.load_from_json (.arr [goodRecord, Json.null]) =
        .ok ([goodRecord, Json.null].filterMap
          (fun j => (CompletedFrame.from_watson_json j).toOption)) :=
  ⟨by decide, load_drops_unparseable_records [goodRecord, Json.null] (by decide)⟩

/-- Counterexample for C8 as stated: `watson::Store::load` fails the
whole load when one record fails to parse, even though another record
of the same file parses fine. -/
theorem watson_load_aborts_counterexample :
    (WatsonFrame.deserialize goodRecord).isOk = true
    ∧ WatsonStore.load_from_json (.arr [goodRecord, Json.null]) =
        .error "invalid length, expected an array of 6 elements" := by
  constructor
  · rfl
  · rfl

/-- Concrete in-memory store with a duplicated project. -/
def dupProjectStore : InMemoryStore :=
  ⟨[("a1", mkCompleted "a1" "alpha" 0 10), ("a2", mkCompleted "a2" "alpha" 20 30),
    ("b", mkCompleted "b" "beta" 5 15)], none⟩

/-- Witness for C6 (amended): the concrete store with project "alpha"
stored twice reports it, with no duplicates and sorted. -/
theorem get_projects_dedup_sorted_witness :
    ((⟨"alpha"⟩ : ProjectName) ∈ InMemoryStore.get_projects dupProjectStore)
    ∧ (InMemoryStore.get_projects dupProjectStore).Nodup
    ∧ List.Sorted (fun a b : ProjectName => a ≤ b)
        (InMemoryStore.get_projects dupProjectStore) :=
  ⟨((get_projects_dedup_sorted dupProjectStore).1 ⟨"alpha"⟩).mpr
      (by simp [dupProjectStore, InMemoryStore.frameValues, mkCompleted]),
   (get_projects_dedup_sorted dupProjectStore).2.1,
   (get_projects_dedup_sorted dupProjectStore).2.2⟩
